import Mathlib

set_option autoImplicit false
set_option linter.unusedSectionVars false

/-!
Verification development for the sharded concurrent map contract
(`src/src/t.rs`, trait `Map`).  The source file declares the operation
set of the map; the three provided methods `_clear`, `_contains_key`
and `_is_empty` are translated directly from their bodies in the
source.  The remaining operations are declared but not implemented in
the source tree, so they are modelled from the specification: a map is
an ordered, fixed-size sequence of shards plus a hash function that
routes every key deterministically to one shard index; each shard is a
key/value table, modelled here as an association list.  Locks are not
modelled: the embedding is the sequential functional semantics of each
operation under its (single) shard-lock acquisition.
-/

namespace DashMap

variable {K V : Type} [DecidableEq K]

/-- Modelled from the spec: per-shard table lookup (the external
table's `get`), returning the value of the first entry whose key
matches. -/
def shardGet (k : K) : List (K × V) → Option V
  | [] => none
  | (k', v) :: rest => if k' = k then some v else shardGet k rest

/-- Modelled from the spec: per-shard table insert (the external
table's `insert`), replacing the value if the key is present and
returning the previous value, else appending the new entry. -/
def shardInsert (k : K) (v : V) : List (K × V) → List (K × V) × Option V
  | [] => ([(k, v)], none)
  | (k', v') :: rest =>
    if k' = k then ((k, v) :: rest, some v')
    else
      let r := shardInsert k v rest
      ((k', v') :: r.1, r.2)

/-- Modelled from the spec: per-shard table removal (the external
table's `remove`), removing the entry whose key matches and returning
the removed pair. -/
def shardRemove (k : K) : List (K × V) → List (K × V) × Option (K × V)
  | [] => ([], none)
  | (k', v') :: rest =>
    if k' = k then (rest, some (k', v'))
    else
      let r := shardRemove k rest
      ((k', v') :: r.1, r.2)

/-- Modelled from the spec: conditional per-shard removal backing
`_remove_if` — the matching entry is removed only if the predicate
holds on it, under the same lookup. -/
def shardRemoveIf (k : K) (f : K → V → Bool) : List (K × V) → List (K × V) × Option (K × V)
  | [] => ([], none)
  | (k', v') :: rest =>
    if k' = k then
      if f k' v' then (rest, some (k', v')) else ((k', v') :: rest, none)
    else
      let r := shardRemoveIf k f rest
      ((k', v') :: r.1, r.2)

/-- Modelled from the spec: per-shard retain (the external table's
`retain`) — keeps exactly the entries on which the predicate holds. -/
def shardRetain (f : K → V → Bool) (s : List (K × V)) : List (K × V) :=
  s.filter fun p => f p.1 p.2

/-- Which of the two presence-dependent callbacks a compound operation
invoked; used to instrument the model so that exactly-once invocation
is a provable statement. -/
inductive CbEvent where
  | keyExists
  | notExists
deriving DecidableEq

/-- Modelled from the spec: the map owns an ordered, fixed-size
sequence of shards plus a hash-builder; the hash-builder is modelled
as the hash function it builds. -/
structure Map (K V : Type) where
  hash : K → Nat
  shards : List (List (K × V))

namespace Map

variable {K V : Type} [DecidableEq K]

/-- Source `_shard_count`: the number of shards. -/
def _shard_count (m : Map K V) : Nat := m.shards.length

/-- Modelled from the spec: deterministic routing of a key to a shard
index via the hash-builder (`hash(key) mod shard_count`). -/
def route (m : Map K V) (k : K) : Nat := m.hash k % m._shard_count

/-- Modelled from the spec: the shard a key routes to. -/
def shardOf (m : Map K V) (k : K) : List (K × V) := m.shards.getD (m.route k) []

/-- Modelled from the spec: replacing one shard's table after a
mutation under that shard's exclusive lock. -/
def setShard (m : Map K V) (i : Nat) (s : List (K × V)) : Map K V :=
  { m with shards := m.shards.set i s }

/-- Modelled from the spec: `_get(key)` acquires the key's shard
(shared lock) and looks the key up; the scoped read handle is modelled
as the looked-up value. -/
def _get (m : Map K V) (k : K) : Option V := shardGet k (m.shardOf k)

/-- Modelled from the spec: `_insert(key, value)` acquires the key's
shard exclusively, always inserts or replaces, and returns the
previous value if the key existed. -/
def _insert (m : Map K V) (k : K) (v : V) : Map K V × Option V :=
  let r := shardInsert k v (m.shardOf k)
  (m.setShard (m.route k) r.1, r.2)

/-- Modelled from the spec: `_remove(key)` removes the key's entry
under the shard's exclusive lock, returning the removed pair. -/
def _remove (m : Map K V) (k : K) : Map K V × Option (K × V) :=
  let r := shardRemove k (m.shardOf k)
  (m.setShard (m.route k) r.1, r.2)

/-- Modelled from the spec: `_remove_if(key, predicate)` removes the
key's entry only if the predicate holds on it, the check and the
removal decided under one exclusive-lock acquisition. -/
def _remove_if (m : Map K V) (k : K) (f : K → V → Bool) : Map K V × Option (K × V) :=
  let r := shardRemoveIf k f (m.shardOf k)
  (m.setShard (m.route k) r.1, r.2)

/-- Modelled from the spec: `_retain(predicate)` removes, shard by
shard, every entry on which the predicate is false. -/
def _retain (m : Map K V) (f : K → V → Bool) : Map K V :=
  { m with shards := m.shards.map (shardRetain f) }

/-- Modelled from the spec: `_len()` sums the per-shard sizes. -/
def _len (m : Map K V) : Nat := (m.shards.map List.length).sum

/-- Source provided method `_clear`: `self._retain(|_, _| false)`. -/
def _clear (m : Map K V) : Map K V := m._retain fun _ _ => false

/-- Source provided method `_contains_key`: `self._get(key).is_some()`. -/
def _contains_key (m : Map K V) (k : K) : Bool := (m._get k).isSome

/-- Source provided method `_is_empty`: `self._len() == 0`. -/
def _is_empty (m : Map K V) : Bool := m._len == 0

/-- Modelled from the spec: `_insert_and_post_process` under a single
exclusive-lock acquisition on the target shard — if the key is
present, invokes `key_exists_func` on the old value before
overwriting, else invokes `not_exists_func`; then performs the
insert/replace; then invokes `post_func` if supplied.  The callbacks'
fallible results are modelled as their (arbitrary) return types. -/
def _insert_and_post_process {T1 T2 T3 : Type} (m : Map K V) (k : K) (v : V)
    (key_exists_func : V → T1) (not_exists_func : Unit → T2)
    (post_func : Option (Unit → T3)) :
    Map K V × Option V × Option T1 × Option T2 × Option T3 :=
  let prev := m._get k
  let r1 := prev.map key_exists_func
  let r2 := match prev with
    | some _ => none
    | none => some (not_exists_func ())
  let ins := m._insert k v
  let r3 := post_func.map fun f => f ()
  (ins.1, ins.2, r1, r2, r3)

/-- Modelled from the spec: `_get_and_post_process` branches under the
shared lock into exactly one of the two fallible callbacks depending
on presence, the key-exists callback given the looked-up value, and
returns the lookup result with the chosen callback's outcome.  The
third component instruments the model with the list of callback
invocations, in order, so exactly-once invocation is provable. -/
def _get_and_post_process {T : Type} (m : Map K V) (k : K)
    (key_exists_func : V → T) (not_exists_func : Unit → T) :
    Option V × T × List CbEvent :=
  match m._get k with
  | some v => (some v, key_exists_func v, [CbEvent.keyExists])
  | none => (none, not_exists_func (), [CbEvent.notExists])

/-- Modelled from the spec: the low-level seam's direct shard access by
numeric index.  Violating the `index < shard_count` precondition has no
defined result, modelled as the absent branch. -/
def _get_read_shard (m : Map K V) (i : Nat) : Option (List (K × V)) :=
  m.shards[i]?

/-- Modelled from the spec: acquisition of a shard's shared guard by
index, same precondition as `_get_read_shard`; the guard is modelled
as the guarded shard. -/
def _yield_read_shard (m : Map K V) (i : Nat) : Option (List (K × V)) :=
  m.shards[i]?

/-- Modelled from the spec: acquisition of a shard's exclusive guard by
index, same precondition as `_get_read_shard`. -/
def _yield_write_shard (m : Map K V) (i : Nat) : Option (List (K × V)) :=
  m.shards[i]?

end Map

/-- A concrete two-shard map over natural-number keys and values, used
to instantiate theorems with hypotheses. -/
def M0 : Map Nat Nat := { hash := id, shards := [[], []] }

/-! Shard-level lemmas. -/

theorem shardInsert_snd (k : K) (v : V) (s : List (K × V)) :
    (shardInsert k v s).2 = shardGet k s := by
  induction s with
  | nil => rfl
  | cons p rest ih =>
    obtain ⟨k', v'⟩ := p
    by_cases h : k' = k <;> simp [shardInsert, shardGet, h, ih]

theorem shardGet_shardInsert_self (k : K) (v : V) (s : List (K × V)) :
    shardGet k (shardInsert k v s).1 = some v := by
  induction s with
  | nil => simp [shardInsert, shardGet]
  | cons p rest ih =>
    obtain ⟨k', v'⟩ := p
    by_cases h : k' = k <;> simp [shardInsert, shardGet, h, ih]

/-! Map-level list helpers. -/

theorem getD_set_self {α : Type} (l : List α) (i : Nat) (a d : α) (h : i < l.length) :
    (l.set i a).getD i d = a := by
  induction l generalizing i with
  | nil => simp at h
  | cons x xs ih =>
    cases i with
    | zero => rfl
    | succ j => simpa using ih j (by simpa using h)

theorem getD_set_ne {α : Type} (l : List α) (i j : Nat) (a d : α) (h : j ≠ i) :
    (l.set i a).getD j d = l.getD j d := by
  induction l generalizing i j with
  | nil => rfl
  | cons x xs ih =>
    cases i with
    | zero =>
      cases j with
      | zero => exact absurd rfl h
      | succ j' => rfl
    | succ i' =>
      cases j with
      | zero => rfl
      | succ j' => simpa using ih i' j' (fun hc => h (by simpa using hc))

/-- C1 helper: the route of a key is below the shard count for a
nonempty map. -/
theorem route_lt (m : Map K V) (k : K) (h : 0 < m._shard_count) :
    m.route k < m._shard_count :=
  Nat.mod_lt _ h

theorem setShard_route (m : Map K V) (i : Nat) (s : List (K × V)) (k : K) :
    (m.setShard i s).route k = m.route k := by
  simp [Map.setShard, Map.route, Map._shard_count]

theorem get_setShard_route_self (m : Map K V) (k : K) (s : List (K × V))
    (h : 0 < m._shard_count) :
    (m.setShard (m.route k) s)._get k = shardGet k s := by
  unfold Map._get Map.shardOf
  rw [setShard_route]
  simp only [Map.setShard]
  rw [getD_set_self _ _ _ _ (route_lt m k h)]

theorem insert_snd_eq_get (m : Map K V) (k : K) (v : V) :
    (m._insert k v).2 = m._get k := by
  simp [Map._insert, Map._get, shardInsert_snd]

theorem get_insert_self (m : Map K V) (k : K) (v : V) (hpos : 0 < m._shard_count) :
    (m._insert k v).1._get k = some v := by
  show (m.setShard (m.route k) (shardInsert k v (m.shardOf k)).1)._get k = some v
  rw [get_setShard_route_self m k _ hpos, shardGet_shardInsert_self]

/-- C1: `_insert` returns the previous value exactly when the key was
present (the absent marker otherwise), and a subsequent `_get` yields
the newly inserted value. -/
theorem insert_get (m : Map K V) (k : K) (v : V) (hpos : 0 < m._shard_count) :
    (m._insert k v).2 = m._get k ∧ (m._insert k v).1._get k = some v :=
  ⟨insert_snd_eq_get m k v, get_insert_self m k v hpos⟩

/-- C1 witness: on the concrete two-shard map, inserting key 3 with
value 7 returns the absent marker and `_get 3` then yields 7. -/
theorem insert_get_witness :
    (M0._insert 3 7).2 = M0._get 3 ∧ (M0._insert 3 7).1._get 3 = some 7 :=
  insert_get M0 3 7 (by decide)

theorem shardRemoveIf_true (k : K) (s : List (K × V)) :
    shardRemoveIf k (fun _ _ => true) s = shardRemove k s := by
  induction s with
  | nil => rfl
  | cons p rest ih =>
    obtain ⟨k', v'⟩ := p
    by_cases h : k' = k <;> simp [shardRemoveIf, shardRemove, h, ih]

/-- C10: `_remove_if` with a predicate that always returns true yields
the same result and the same resulting map state as `_remove`. -/
theorem remove_if_true_eq_remove (m : Map K V) (k : K) :
    m._remove_if k (fun _ _ => true) = m._remove k := by
  simp [Map._remove_if, Map._remove, shardRemoveIf_true]

theorem set_getD_self {α : Type} (l : List α) (i : Nat) (d : α) (h : i < l.length) :
    l.set i (l.getD i d) = l := by
  induction l generalizing i with
  | nil => rfl
  | cons x xs ih =>
    cases i with
    | zero => rfl
    | succ j => simpa using ih j (by simpa using h)

theorem shardRemoveIf_not_matched (k : K) (v : V) (f : K → V → Bool) (s : List (K × V))
    (hv : shardGet k s = some v) (hf : f k v = false) :
    shardRemoveIf k f s = (s, none) := by
  induction s with
  | nil => simp [shardGet] at hv
  | cons p rest ih =>
    obtain ⟨k', v'⟩ := p
    by_cases h : k' = k
    · subst h
      simp [shardGet] at hv
      subst hv
      simp [shardRemoveIf, hf]
    · simp [shardGet, h] at hv
      simp [shardRemoveIf, h, ih hv]

theorem remove_if_false_state (m : Map K V) (k : K) (v : V) (f : K → V → Bool)
    (hpos : 0 < m._shard_count) (hv : m._get k = some v) (hf : f k v = false) :
    m._remove_if k f = (m, none) := by
  unfold Map._remove_if
  rw [shardRemoveIf_not_matched k v f _ hv hf]
  show (m.setShard (m.route k) (m.shardOf k), none) = (m, none)
  unfold Map.setShard Map.shardOf
  rw [set_getD_self _ _ _ (route_lt m k hpos)]

/-- C4: when the key is present with value v and the predicate rejects
(k, v), `_remove_if` returns the absent marker and leaves the length
and the key's value unchanged. -/
theorem remove_if_false_no_change (m : Map K V) (k : K) (v : V) (f : K → V → Bool)
    (hpos : 0 < m._shard_count) (hv : m._get k = some v) (hf : f k v = false) :
    (m._remove_if k f).2 = none ∧ (m._remove_if k f).1._len = m._len ∧
      (m._remove_if k f).1._get k = some v := by
  rw [remove_if_false_state m k v f hpos hv hf]
  exact ⟨rfl, rfl, hv⟩

/-- C4 witness: on the two-shard map holding key 1 with value 5, a
predicate false at (1, 5) removes nothing and changes nothing. -/
theorem remove_if_false_no_change_witness :
    ((M0._insert 1 5).1._remove_if 1 (fun _ v => v == 6)).2 = none ∧
      ((M0._insert 1 5).1._remove_if 1 (fun _ v => v == 6)).1._len = (M0._insert 1 5).1._len ∧
      ((M0._insert 1 5).1._remove_if 1 (fun _ v => v == 6)).1._get 1 = some 5 :=
  remove_if_false_no_change (M0._insert 1 5).1 1 5 (fun _ v => v == 6)
    (by decide) (by decide) (by decide)

theorem shardRetain_false (s : List (K × V)) : shardRetain (fun _ _ => false) s = [] := by
  induction s with
  | nil => rfl
  | cons p rest ih => simp [shardRetain, List.filter_cons]

/-- C5: `_clear` is exactly `_retain` with an always-false predicate,
and the map is empty afterwards: `_len` is 0 and `_is_empty` is true. -/
theorem clear_is_retain_false (m : Map K V) :
    m._clear = m._retain (fun _ _ => false) ∧ (m._clear)._len = 0 ∧
      (m._clear)._is_empty = true := by
  have hlen : (m._clear)._len = 0 := by
    simp [Map._clear, Map._retain, Map._len]
    induction m.shards with
    | nil => rfl
    | cons s rest ih => simpa [shardRetain_false] using ih
  exact ⟨rfl, hlen, by simp [Map._is_empty, hlen]⟩

/-- C6: the provided `_contains_key` answers exactly whether `_get`
returns a handle, and the provided `_is_empty` answers exactly whether
`_len` is 0. -/
theorem derived_ops_from_primitives (m : Map K V) (k : K) :
    (m._contains_key k = true ↔ (m._get k).isSome = true) ∧
      (m._is_empty = true ↔ m._len = 0) := by
  constructor
  · simp [Map._contains_key]
  · simp [Map._is_empty]

/-- C2: each field of the 4-tuple is present exactly under the stated
condition — previous value and key-exists outcome iff the key was
present, not-exists outcome iff it was absent (mutually exclusive with
the previous-value field), post outcome iff a post callback was
supplied — and afterwards the key maps to the inserted value. -/
theorem insert_and_post_process_spec {T1 T2 T3 : Type} (m : Map K V) (k : K) (v : V)
    (kef : V → T1) (nef : Unit → T2) (pf : Option (Unit → T3))
    (hpos : 0 < m._shard_count) :
    ((m._insert_and_post_process k v kef nef pf).2.1.isSome = true ↔
        (m._get k).isSome = true) ∧
      ((m._insert_and_post_process k v kef nef pf).2.2.1.isSome = true ↔
        (m._get k).isSome = true) ∧
      ((m._insert_and_post_process k v kef nef pf).2.2.2.1.isSome = true ↔
        (m._get k).isSome = false) ∧
      ((m._insert_and_post_process k v kef nef pf).2.2.2.2.isSome = true ↔
        pf.isSome = true) ∧
      (m._insert_and_post_process k v kef nef pf).1._get k = some v := by
  unfold Map._insert_and_post_process
  refine ⟨?_, ?_, ?_, ?_, ?_⟩
  · simp [insert_snd_eq_get]
  · cases m._get k <;> simp
  · cases m._get k <;> simp
  · cases pf <;> simp
  · simpa using get_insert_self m k v hpos

/-- C2 witness: inserting key 2 with value 4 into the empty two-shard
map — the key was absent, so only the not-exists outcome is present,
and key 2 then maps to 4. -/
theorem insert_and_post_process_spec_witness :
    ((M0._insert_and_post_process 2 4 (fun v => v + 1) (fun _ => 0)
        (none : Option (Unit → Nat))).2.1.isSome = true ↔ (M0._get 2).isSome = true) ∧
      ((M0._insert_and_post_process 2 4 (fun v => v + 1) (fun _ => 0)
        (none : Option (Unit → Nat))).2.2.1.isSome = true ↔ (M0._get 2).isSome = true) ∧
      ((M0._insert_and_post_process 2 4 (fun v => v + 1) (fun _ => 0)
        (none : Option (Unit → Nat))).2.2.2.1.isSome = true ↔ (M0._get 2).isSome = false) ∧
      ((M0._insert_and_post_process 2 4 (fun v => v + 1) (fun _ => 0)
        (none : Option (Unit → Nat))).2.2.2.2.isSome = true ↔
        (none : Option (Unit → Nat)).isSome = true) ∧
      (M0._insert_and_post_process 2 4 (fun v => v + 1) (fun _ => 0)
        (none : Option (Unit → Nat))).1._get 2 = some 4 :=
  insert_and_post_process_spec M0 2 4 (fun v => v + 1) (fun _ => 0) none (by decide)

/-- C3: `_get_and_post_process` invokes exactly one callback exactly
once — the key-exists callback precisely when the key is present — and
returns the lookup result paired with the chosen callback's outcome. -/
theorem get_and_post_process_spec {T : Type} (m : Map K V) (k : K)
    (kef : V → T) (nef : Unit → T) :
    (m._get_and_post_process k kef nef).2.2.length = 1 ∧
      ((m._get_and_post_process k kef nef).2.2 = [CbEvent.keyExists] ↔
        (m._get k).isSome = true) ∧
      (m._get_and_post_process k kef nef).1 = m._get k ∧
      (m._get_and_post_process k kef nef).2.1 =
        (match m._get k with
          | some v => kef v
          | none => nef ()) := by
  unfold Map._get_and_post_process
  cases m._get k <;> simp

/-- C7: shard-index accesses below `_shard_count` are well-defined (the
out-of-bounds branch is unreachable), and the routing used by every
public operation always produces an index below `_shard_count`. -/
theorem shard_index_precondition (m : Map K V) (i : Nat) (k : K)
    (hi : i < m._shard_count) :
    (m._get_read_shard i).isSome = true ∧ (m._yield_read_shard i).isSome = true ∧
      (m._yield_write_shard i).isSome = true ∧ m.route k < m._shard_count := by
  have h0 : 0 < m._shard_count := Nat.lt_of_le_of_lt (Nat.zero_le i) hi
  have hi' : i < m.shards.length := hi
  have hs : (m.shards[i]?).isSome = true := by
    rw [List.getElem?_eq_getElem hi']; rfl
  exact ⟨hs, hs, hs, route_lt m k h0⟩

/-- C7 witness: on the concrete two-shard map, index 1 satisfies the
precondition, all three seam accesses are defined, and key 5 routes
below the shard count. -/
theorem shard_index_precondition_witness :
    (M0._get_read_shard 1).isSome = true ∧ (M0._yield_read_shard 1).isSome = true ∧
      (M0._yield_write_shard 1).isSome = true ∧ M0.route 5 < M0._shard_count :=
  shard_index_precondition M0 1 5 (by decide)

theorem shardGet_shardInsert_ne (k k' : K) (v : V) (s : List (K × V)) (h : k' ≠ k) :
    shardGet k' (shardInsert k v s).1 = shardGet k' s := by
  induction s with
  | nil => simp [shardInsert, shardGet, Ne.symm h]
  | cons p rest ih =>
    obtain ⟨k₀, v₀⟩ := p
    by_cases h0 : k₀ = k
    · simp [shardInsert, shardGet, h0, Ne.symm h]
    · by_cases h1 : k₀ = k'
      · simp [shardInsert, shardGet, h0, h1, h]
      · simp [shardInsert, shardGet, h0, h1, ih]

theorem shardInsert_length_absent (k : K) (v : V) (s : List (K × V))
    (hn : shardGet k s = none) : (shardInsert k v s).1.length = s.length + 1 := by
  induction s with
  | nil => rfl
  | cons p rest ih =>
    obtain ⟨k', v'⟩ := p
    by_cases h : k' = k
    · simp [shardGet, h] at hn
    · simp [shardGet, h] at hn
      simp [shardInsert, h, ih hn]

theorem shardInsert_length_present (k : K) (v w : V) (s : List (K × V))
    (hp : shardGet k s = some w) : (shardInsert k v s).1.length = s.length := by
  induction s with
  | nil => simp [shardGet] at hp
  | cons p rest ih =>
    obtain ⟨k', v'⟩ := p
    by_cases h : k' = k
    · simp [shardInsert, h]
    · simp [shardGet, h] at hp
      simp [shardInsert, h, ih hp]

theorem sum_map_length_set {α : Type} (l : List (List α)) (i : Nat) (s : List α)
    (h : i < l.length) :
    ((l.set i s).map List.length).sum + (l.getD i []).length =
      (l.map List.length).sum + s.length := by
  induction l generalizing i with
  | nil => simp at h
  | cons x xs ih =>
    cases i with
    | zero => simp; omega
    | succ j =>
      have hj := ih j (by simpa using h)
      simp only [List.set_cons_succ, List.map_cons, List.sum_cons, List.getD_cons_succ]
      omega

/-- C9: inserting key k leaves every other key's binding unchanged, and
the length grows by one exactly when the insert reports the key as
previously absent, by zero when it reports a previous value. -/
theorem insert_frame (m : Map K V) (k k' : K) (v : V)
    (hpos : 0 < m._shard_count) (hne : k' ≠ k) :
    (m._insert k v).1._get k' = m._get k' ∧
      ((m._insert k v).2 = none → (m._insert k v).1._len = m._len + 1) ∧
      ((m._insert k v).2.isSome = true → (m._insert k v).1._len = m._len) := by
  have hlt : m.route k < m.shards.length := route_lt m k hpos
  have hget : (m._insert k v).1._get k' = m._get k' := by
    show (m.setShard (m.route k) (shardInsert k v (m.shardOf k)).1)._get k' = m._get k'
    unfold Map._get Map.shardOf
    rw [setShard_route]
    simp only [Map.setShard]
    by_cases hr : m.route k' = m.route k
    · rw [hr, getD_set_self _ _ _ _ hlt]
      exact shardGet_shardInsert_ne k k' v _ hne
    · rw [getD_set_ne _ _ _ _ _ hr]
  have hsum :
      (m._insert k v).1._len + (m.shardOf k).length =
        m._len + (shardInsert k v (m.shardOf k)).1.length := by
    show (m.setShard (m.route k) (shardInsert k v (m.shardOf k)).1)._len + _ = _
    unfold Map._len Map.setShard Map.shardOf
    exact sum_map_length_set m.shards (m.route k) _ hlt
  have hsnd : (m._insert k v).2 = shardGet k (m.shardOf k) := by
    simp [Map._insert, shardInsert_snd]
  refine ⟨hget, ?_, ?_⟩
  · intro hnone
    rw [hsnd] at hnone
    have hil := shardInsert_length_absent k v (m.shardOf k) hnone
    omega
  · intro hsome
    rw [hsnd] at hsome
    obtain ⟨w, hw⟩ := Option.isSome_iff_exists.mp hsome
    have hil := shardInsert_length_present k v w (m.shardOf k) hw
    omega

/-- C9 witness: on the two-shard map holding key 1 with value 5,
inserting key 0 leaves key 1 unchanged and, since key 0 was absent,
grows the length by one. -/
theorem insert_frame_witness :
    (((M0._insert 1 5).1._insert 0 9).1._get 1 = (M0._insert 1 5).1._get 1 ∧
      (((M0._insert 1 5).1._insert 0 9).2 = none →
        ((M0._insert 1 5).1._insert 0 9).1._len = (M0._insert 1 5).1._len + 1) ∧
      (((M0._insert 1 5).1._insert 0 9).2.isSome = true →
        ((M0._insert 1 5).1._insert 0 9).1._len = (M0._insert 1 5).1._len)) :=
  insert_frame (M0._insert 1 5).1 0 1 9 (by decide) (by decide)

end DashMap
